import Mathlib

/-!
Verification of the input-file ingestion layer of the lld ELF linker
(`tools/lld/ELF/InputFiles.cpp`).

The development shallowly embeds the functions of `InputFiles.cpp` that the
claims are about.  Pure classification logic (`shouldMerge`,
`getShtGroupEntries`, `getRelocTarget`, `createInputSection`,
`initializeSections`, `getElfSymbols`, the symbol-slice accessors,
`parseSoName`, `ArchiveFile::getMember`, `LazyObjectFile::getBuffer`,
`BinaryFile::createELF`) is translated into Lean functions.  Fallible code
(`fatal(...)`) is modelled with `Except String`, carrying the exact message the
source builds.  The external llvm binary decoder (`ELFFile`, string tables,
archive member resolution) is abstracted by passing its already-decoded results
as fields/parameters, since that library is not part of the sources under
study; such spots are noted in the doc comments.
-/

deriving instance DecidableEq for Except

namespace LLD

/-! ## ELF constants (values from llvm/Support/ELF.h used by InputFiles.cpp) -/

def SHT_NULL : Nat := 0
def SHT_PROGBITS : Nat := 1
def SHT_SYMTAB : Nat := 2
def SHT_STRTAB : Nat := 3
def SHT_RELA : Nat := 4
def SHT_DYNAMIC : Nat := 6
def SHT_REL : Nat := 9
def SHT_DYNSYM : Nat := 11
def SHT_GROUP : Nat := 17
def SHT_SYMTAB_SHNDX : Nat := 18
def SHT_ARM_ATTRIBUTES : Nat := 0x70000003
def SHT_MIPS_REGINFO : Nat := 0x70000006
def SHT_MIPS_OPTIONS : Nat := 0x7000000d
def SHT_MIPS_ABIFLAGS : Nat := 0x7000002a

def SHF_WRITE : Nat := 0x1
def SHF_ALLOC : Nat := 0x2
def SHF_MERGE : Nat := 0x10
def SHF_STRINGS : Nat := 0x20
def SHF_EXCLUDE : Nat := 0x80000000

def GRP_COMDAT : Nat := 1
def SHN_ABS : Nat := 0xfff1
def DT_SONAME : Nat := 14
def STB_GLOBAL : Nat := 1
def STT_OBJECT : Nat := 1

/-! ## Configuration (the fields of the process-wide `Config` record that
`InputFiles.cpp` reads) -/

/-- `StripPolicy` from Config.h: `-s`/`-S` handling. -/
inductive StripPolicy
  | none
  | all
  | debug
deriving DecidableEq, Repr

/-- The slice of the process-wide configuration record consulted by the
ingestion layer: `Config->Optimize`, `Config->Relocatable`, `Config->Strip`,
`Config->EMachine`. -/
structure Config where
  Optimize : Nat
  Relocatable : Bool
  Strip : StripPolicy
  EMachine : Nat
deriving DecidableEq, Repr

/-! ## Section headers

A section header as `InputFiles.cpp` consumes it.  The `name` field is the
result of `ELFObj.getSectionName(&Sec)`, the `signature` field the result of
`getShtGroupSignature(Sec)` (both resolve through the external llvm string
table decoder, which is abstracted here), and `contents` is the word array
returned by `getSectionContentsAsArray<Elf_Word>` for `SHT_GROUP` sections. -/
structure Shdr where
  sh_type : Nat := 0
  sh_flags : Nat := 0
  sh_info : Nat := 0
  sh_entsize : Nat := 0
  sh_addralign : Nat := 0
  sh_size : Nat := 0
  name : String := ""
  signature : String := ""
  contents : List Nat := []
deriving DecidableEq, Repr

/-! ## ObjectFile::shouldMerge (InputFiles.cpp:174-216) -/

/-- `ObjectFile<ELFT>::shouldMerge(const Elf_Shdr &Sec)`.  Decides whether a
section is classified as a mergeable section; `fatal` calls become
`Except.error` with the message the source builds (prefixed by
`getFilename(this)`, passed here as `fname`). -/
def shouldMerge (cfg : Config) (fname : String) (sec : Shdr) : Except String Bool :=
  if cfg.Optimize = 0 then .ok false
  else if sec.sh_size = 0 then .ok false
  else if sec.sh_entsize = 0 then .ok false
  else if sec.sh_size % sec.sh_entsize ≠ 0 then
    .error (fname ++ ": SHF_MERGE section size must be a multiple of sh_entsize")
  else if sec.sh_flags &&& SHF_MERGE = 0 then .ok false
  else if sec.sh_flags &&& SHF_WRITE ≠ 0 then
    .error (fname ++ ": writable SHF_MERGE section is not supported")
  else if sec.sh_flags &&& SHF_STRINGS ≠ 0 then .ok true
  else .ok (decide (sec.sh_addralign ≤ sec.sh_entsize))

/-- C2 (counterexample): the claim quantifies over every section reaching
classification, but at optimize level 0 `shouldMerge` returns `false` before
looking at any flag, so a section satisfying all the mergeability conditions
(here: `SHF_MERGE ||| SHF_STRINGS`, `sh_entsize = 4`, `sh_size = 4`, not
writable) is still classified non-mergeable, refuting the claimed
if-and-only-if at this concrete input. -/
theorem shouldMerge_claim_cex :
    ¬ ((shouldMerge ⟨0, false, StripPolicy.none, 0⟩ "f"
          ⟨1, 0x30, 0, 4, 8, 4, "", "", []⟩ = .ok true) ↔
       ((0x30 : Nat) &&& SHF_STRINGS ≠ 0 ∨ (8 : Nat) ≤ 4)) := by
  decide

/-- C2 (amended): for every section reaching classification while the
configured optimize level is nonzero, `shouldMerge` decides mergeability
exactly as specified: a section with SHF_MERGE set, `sh_entsize > 0`,
`sh_size` a nonzero multiple of `sh_entsize`, and SHF_WRITE clear is
classified mergeable iff SHF_STRINGS is set or `sh_addralign ≤ sh_entsize`;
a section with both SHF_WRITE and SHF_MERGE (and nonzero `sh_size` and
`sh_entsize`) is fatal; a section with `sh_entsize > 0` and `sh_size` not a
multiple of `sh_entsize` is fatal; sections with `sh_size = 0` or
`sh_entsize = 0` are classified non-mergeable without error. -/
theorem shouldMerge_spec (cfg : Config) (fname : String) (sec : Shdr)
    (hopt : cfg.Optimize ≠ 0) :
    ((sec.sh_flags &&& SHF_MERGE ≠ 0 → sec.sh_entsize ≠ 0 → sec.sh_size ≠ 0 →
        sec.sh_size % sec.sh_entsize = 0 → sec.sh_flags &&& SHF_WRITE = 0 →
        (shouldMerge cfg fname sec = .ok true ↔
          (sec.sh_flags &&& SHF_STRINGS ≠ 0 ∨ sec.sh_addralign ≤ sec.sh_entsize)))
    ∧ (sec.sh_flags &&& SHF_WRITE ≠ 0 → sec.sh_flags &&& SHF_MERGE ≠ 0 →
        sec.sh_size ≠ 0 → sec.sh_entsize ≠ 0 →
        ∃ e, shouldMerge cfg fname sec = .error e)
    ∧ (sec.sh_entsize ≠ 0 → sec.sh_size % sec.sh_entsize ≠ 0 →
        shouldMerge cfg fname sec =
          .error (fname ++ ": SHF_MERGE section size must be a multiple of sh_entsize"))
    ∧ (sec.sh_size = 0 ∨ sec.sh_entsize = 0 → shouldMerge cfg fname sec = .ok false)) := by
  unfold shouldMerge
  rw [if_neg hopt]
  refine ⟨?_, ?_, ?_, ?_⟩
  · intro hm he hz hdvd hw
    rw [if_neg hz, if_neg he, if_neg (by simp [hdvd]), if_neg hm, if_neg (by simp [hw])]
    by_cases hs : sec.sh_flags &&& SHF_STRINGS ≠ 0
    · rw [if_pos hs]
      simp [hs]
    · rw [if_neg hs]
      by_cases ha : sec.sh_addralign ≤ sec.sh_entsize
      · simp [ha]
      · simp [hs, ha]
  · intro hw hm hz he
    rw [if_neg hz, if_neg he]
    by_cases hdvd : sec.sh_size % sec.sh_entsize ≠ 0
    · rw [if_pos hdvd]
      exact ⟨_, rfl⟩
    · rw [if_neg hdvd, if_neg hm, if_pos hw]
      exact ⟨_, rfl⟩
  · intro he hdvd
    have hz : sec.sh_size ≠ 0 := by
      intro h0
      exact hdvd (by simp [h0])
    rw [if_neg hz, if_neg he, if_pos hdvd]
  · intro h
    rcases h with hz | he
    · rw [if_pos hz]
    · by_cases hz : sec.sh_size = 0
      · rw [if_pos hz]
      · rw [if_neg hz, if_pos he]

/-- C2 (witness): a concrete mergeable-strings section at optimize level 1 is
classified mergeable by the amended theorem. -/
theorem shouldMerge_spec_witness :
    shouldMerge ⟨1, false, StripPolicy.none, 0⟩ "f" ⟨1, 0x30, 0, 4, 8, 4, "", "", []⟩ =
      .ok true :=
  ((shouldMerge_spec ⟨1, false, StripPolicy.none, 0⟩ "f" ⟨1, 0x30, 0, 4, 8, 4, "", "", []⟩
      (by decide)).1 (by decide) (by decide) (by decide) (by decide) (by decide)).mpr
    (Or.inl (by decide))

/-- C9: when the configured optimize level is 0, `shouldMerge` returns `false`
for every section (without error), so no section is ever classified mergeable
and neither of the mergeable-related fatal errors can be raised. -/
theorem shouldMerge_optimize0 (cfg : Config) (fname : String) (sec : Shdr)
    (h : cfg.Optimize = 0) :
    shouldMerge cfg fname sec = .ok false ∧
      ∀ e, shouldMerge cfg fname sec ≠ .error e := by
  unfold shouldMerge
  rw [if_pos h]
  exact ⟨rfl, fun e hc => by cases hc⟩

/-- C9 (witness): a writable SHF_MERGE section with `sh_size` not a multiple of
`sh_entsize` — fatal at any other optimize level — is silently non-mergeable at
optimize level 0. -/
theorem shouldMerge_optimize0_witness :
    shouldMerge ⟨0, false, StripPolicy.none, 0⟩ "f" ⟨1, 0x11, 0, 4, 8, 7, "", "", []⟩ =
      .ok false :=
  (shouldMerge_optimize0 ⟨0, false, StripPolicy.none, 0⟩ "f"
      ⟨1, 0x11, 0, 4, 8, 7, "", "", []⟩ rfl).1

/-! ## Section classification state (ObjectFile::initializeSections and
ObjectFile::createInputSection, InputFiles.cpp:218-354)

The `Sections` vector of an `ObjectFile` holds, per section-header index,
either `nullptr`, the process-wide `&InputSection<ELFT>::Discarded` sentinel,
or a newly created section object.  The created objects are modelled by which
class the source instantiates, together with the mutable relocation-attachment
fields that `createInputSection` updates (`InputSection::RelocSections`,
a list of the section-header indices of attached `SHT_REL[A]` sections, and
`EhInputSection::RelocSection`). -/

inductive SEnt
  | null
  | discarded
  | regular (relocs : List Nat)
  | merge
  | ehFrame (relocSec : Option Nat)
  | mipsReginfo
  | mipsOptions
  | mipsAbiFlags
deriving DecidableEq, Repr

/-- The state threaded through `initializeSections`: the per-file `Sections`
vector, the process-wide COMDAT signature set (`DenseSet<StringRef>` modelled
as an insertion list), the recorded `Symtab` / `SymtabSHNDX` headers, and the
non-fatal diagnostics issued through `error(...)`. -/
structure PState where
  sections : List SEnt
  comdat : List String
  symtab : Option Shdr
  symtabSHNDX : Option Shdr
  errs : List String
deriving DecidableEq, Repr

/-- `ObjectFile<ELFT>::getShtGroupEntries(const Elf_Shdr &Sec)`
(InputFiles.cpp:163-172): reads the group's word array, requires a leading
`GRP_COMDAT` word, and returns the member section indices after it. -/
def getShtGroupEntries (fname : String) (sec : Shdr) : Except String (List Nat) :=
  match sec.contents with
  | [] => .error (fname ++ ": unsupported SHT_GROUP format")
  | w :: rest =>
      if w = GRP_COMDAT then .ok rest
      else .error (fname ++ ": unsupported SHT_GROUP format")

/-- The member-marking loop of the duplicate-COMDAT branch of
`initializeSections` (InputFiles.cpp:240-245): each listed index is bounds
checked against the number of sections and then set to the discarded
sentinel. -/
def markGroupMembers (fname : String) (n : Nat) :
    List Nat → List SEnt → Except String (List SEnt)
  | [], secs => .ok secs
  | e :: rest, secs =>
      if n ≤ e then
        .error (fname ++ ": invalid section index in group: " ++ toString e)
      else markGroupMembers fname n rest (secs.set e .discarded)

/-- `ObjectFile<ELFT>::getRelocTarget(const Elf_Shdr &Sec)`
(InputFiles.cpp:262-280): resolves `sh_info` against the `Sections` vector;
out-of-range is fatal, the discarded sentinel yields `none` (the relocation
section is dropped), `nullptr` is fatal, anything else is the target. -/
def getRelocTarget (fname : String) (n : Nat) (secs : List SEnt) (sec : Shdr) :
    Except String (Option Nat) :=
  if n ≤ sec.sh_info then
    .error (fname ++ ": invalid relocated section index: " ++ toString sec.sh_info)
  else
    match secs.getD sec.sh_info .null with
    | .discarded => .ok none
    | .null => .error (fname ++ ": unsupported relocation reference")
    | _ => .ok (some sec.sh_info)

/-- `ObjectFile<ELFT>::createInputSection(const Elf_Shdr &Sec)`
(InputFiles.cpp:282-354), as the state update it performs on `Sections[i]`
(the assignment `Sections[I] = createInputSection(Sec)` done by the caller)
and on the relocation target it may mutate.  `n` is the section count. -/
def createInputSection (cfg : Config) (fname : String) (n : Nat) (sec : Shdr)
    (i : Nat) (st : PState) : Except String PState :=
  if sec.sh_type = SHT_ARM_ATTRIBUTES then
    .ok { st with sections := st.sections.set i .discarded }
  else if sec.sh_type = SHT_MIPS_REGINFO then
    .ok { st with sections := st.sections.set i .mipsReginfo }
  else if sec.sh_type = SHT_MIPS_OPTIONS then
    .ok { st with sections := st.sections.set i .mipsOptions }
  else if sec.sh_type = SHT_MIPS_ABIFLAGS then
    .ok { st with sections := st.sections.set i .mipsAbiFlags }
  else if sec.sh_type = SHT_RELA ∨ sec.sh_type = SHT_REL then
    if cfg.Relocatable then
      .ok { st with sections := st.sections.set i (.regular []) }
    else
      match getRelocTarget fname n st.sections sec with
      | .error e => .error e
      | .ok none => .ok { st with sections := st.sections.set i .null }
      | .ok (some idx) =>
          match st.sections.getD idx .null with
          | .regular l =>
              .ok { st with sections :=
                      (st.sections.set idx (.regular (l ++ [i]))).set i .null }
          | .ehFrame none =>
              .ok { st with sections :=
                      (st.sections.set idx (.ehFrame (some i))).set i .null }
          | .ehFrame (some _) =>
              .error (fname ++
                ": multiple relocation sections to .eh_frame are not supported")
          | _ =>
              .error (fname ++ ": relocations pointing to SHF_MERGE are not supported")
  else if sec.name = ".note.GNU-stack" then
    .ok { st with sections := st.sections.set i .discarded }
  else if sec.name = ".note.GNU-split-stack" then
    .ok { st with
          sections := st.sections.set i .discarded
          errs := st.errs ++ ["objects using splitstacks are not supported"] }
  else if cfg.Strip ≠ StripPolicy.none ∧ String.startsWith sec.name ".debug" then
    .ok { st with sections := st.sections.set i .discarded }
  else if sec.name = ".eh_frame" ∧ cfg.Relocatable = false then
    .ok { st with sections := st.sections.set i (.ehFrame none) }
  else
    match shouldMerge cfg fname sec with
    | .error e => .error e
    | .ok m =>
        .ok { st with sections :=
                st.sections.set i (if m then .merge else .regular []) }

/-- The loop body of `initializeSections` (InputFiles.cpp:225-258) for the
section header `sec` at index `i`. -/
def processSection (cfg : Config) (fname : String) (n : Nat) (sec : Shdr)
    (i : Nat) (st : PState) : Except String PState :=
  if st.sections.getD i .null = .discarded then .ok st
  else if sec.sh_flags &&& SHF_EXCLUDE ≠ 0 then
    .ok { st with sections := st.sections.set i .discarded }
  else if sec.sh_type = SHT_GROUP then
    if sec.signature ∈ st.comdat then
      match getShtGroupEntries fname sec with
      | .error e => .error e
      | .ok ents =>
          match markGroupMembers fname n ents (st.sections.set i .discarded) with
          | .error e => .error e
          | .ok secs => .ok { st with sections := secs }
    else
      .ok { st with
            sections := st.sections.set i .discarded
            comdat := sec.signature :: st.comdat }
  else if sec.sh_type = SHT_SYMTAB then .ok { st with symtab := some sec }
  else if sec.sh_type = SHT_SYMTAB_SHNDX then .ok { st with symtabSHNDX := some sec }
  else if sec.sh_type = SHT_STRTAB ∨ sec.sh_type = SHT_NULL then .ok st
  else createInputSection cfg fname n sec i st

/-- The iteration of `initializeSections` over the section headers from index
`i` on. -/
def initSecsGo (cfg : Config) (fname : String) (n : Nat) :
    List Shdr → Nat → PState → Except String PState
  | [], _, st => .ok st
  | sec :: rest, i, st =>
      match processSection cfg fname n sec i st with
      | .error e => .error e
      | .ok st' => initSecsGo cfg fname n rest (i + 1) st'

/-- `ObjectFile<ELFT>::initializeSections(DenseSet<StringRef> &ComdatGroups)`
(InputFiles.cpp:218-260): the `Sections` vector starts as `Size` null entries
and the section headers are walked in index order.  `comdatGroups` is the
process-wide COMDAT signature set as populated by all previously parsed
files. -/
def initializeSections (cfg : Config) (fname : String) (shdrs : List Shdr)
    (comdatGroups : List String) : Except String PState :=
  initSecsGo cfg fname shdrs.length shdrs 0
    ⟨List.replicate shdrs.length .null, comdatGroups, none, none, []⟩

/-! ## Helper lemmas about list updates -/

theorem getD_set_cases {α : Type} (l : List α) (i j : Nat) (a d : α) :
    (l.set i a).getD j d = if i = j ∧ j < l.length then a else l.getD j d := by
  induction l generalizing i j with
  | nil => simp [List.getD]
  | cons x xs ih =>
      cases i with
      | zero =>
          cases j with
          | zero => simp [List.getD]
          | succ k => simp [List.getD]
      | succ m =>
          cases j with
          | zero => simp [List.getD]
          | succ k =>
              have h := ih m k
              simp only [List.set, List.length_cons]
              rw [List.getD_cons_succ, List.getD_cons_succ, h]
              by_cases hmk : m = k
              · subst hmk
                by_cases hlt : m < xs.length
                · rw [if_pos ⟨rfl, hlt⟩, if_pos ⟨rfl, by omega⟩]
                · rw [if_neg (by omega), if_neg (by omega)]
              · rw [if_neg (by omega), if_neg (by omega)]

theorem getD_set_self {α : Type} (l : List α) (i : Nat) (a d : α)
    (h : i < l.length) : (l.set i a).getD i d = a := by
  rw [getD_set_cases]
  exact if_pos ⟨rfl, h⟩

theorem getD_set_other {α : Type} (l : List α) (i j : Nat) (a d : α)
    (h : i ≠ j) : (l.set i a).getD j d = l.getD j d := by
  rw [getD_set_cases]
  exact if_neg (by omega)

theorem getD_set_same_val {α : Type} (l : List α) (i j : Nat) (a d : α)
    (h : l.getD j d = a) : (l.set i a).getD j d = a := by
  rw [getD_set_cases]
  by_cases hc : i = j ∧ j < l.length
  · exact if_pos hc
  · rw [if_neg hc]
    exact h

/-! ## Invariants of the marking loop -/

theorem markGroupMembers_length (fname : String) (n : Nat) :
    ∀ (ents : List Nat) (secs secs' : List SEnt),
      markGroupMembers fname n ents secs = .ok secs' → secs'.length = secs.length := by
  intro ents
  induction ents with
  | nil =>
      intro secs secs' h
      cases h
      rfl
  | cons e rest ih =>
      intro secs secs' h
      unfold markGroupMembers at h
      split at h
      · cases h
      · have := ih _ _ h
        simpa [List.length_set] using this

theorem markGroupMembers_preserve (fname : String) (n : Nat) :
    ∀ (ents : List Nat) (secs secs' : List SEnt) (j : Nat),
      markGroupMembers fname n ents secs = .ok secs' →
      secs.getD j .null = .discarded → secs'.getD j .null = .discarded := by
  intro ents
  induction ents with
  | nil =>
      intro secs secs' j h hd
      cases h
      exact hd
  | cons e rest ih =>
      intro secs secs' j h hd
      unfold markGroupMembers at h
      split at h
      · cases h
      · exact ih _ _ _ h (getD_set_same_val _ _ _ _ _ hd)

theorem markGroupMembers_mem (fname : String) (n : Nat) :
    ∀ (ents : List Nat) (secs secs' : List SEnt),
      markGroupMembers fname n ents secs = .ok secs' → secs.length = n →
      ∀ e ∈ ents, secs'.getD e .null = .discarded := by
  intro ents
  induction ents with
  | nil =>
      intro secs secs' h hlen e he
      cases he
  | cons e0 rest ih =>
      intro secs secs' h hlen e he
      unfold markGroupMembers at h
      split at h
      · cases h
      · rcases List.mem_cons.mp he with rfl | hmem
        · refine markGroupMembers_preserve fname n _ _ _ _ h ?_
          exact getD_set_self _ _ _ _ (by omega)
        · exact ih _ _ h (by simp [List.length_set, hlen]) _ hmem

theorem markGroupMembers_other (fname : String) (n : Nat) :
    ∀ (ents : List Nat) (secs secs' : List SEnt) (j : Nat),
      markGroupMembers fname n ents secs = .ok secs' → j ∉ ents →
      secs'.getD j .null = secs.getD j .null := by
  intro ents
  induction ents with
  | nil =>
      intro secs secs' j h _
      cases h
      rfl
  | cons e rest ih =>
      intro secs secs' j h hj
      unfold markGroupMembers at h
      split at h
      · cases h
      · have hne : e ≠ j := fun hc => hj (hc ▸ List.mem_cons_self e rest)
        rw [ih _ _ _ h (fun hc => hj (List.mem_cons_of_mem _ hc)),
            getD_set_other _ _ _ _ _ hne]

theorem markGroupMembers_regular (fname : String) (n : Nat) :
    ∀ (ents : List Nat) (secs secs' : List SEnt) (t : Nat) (l : List Nat),
      markGroupMembers fname n ents secs = .ok secs' →
      secs'.getD t .null = .regular l → secs.getD t .null = .regular l := by
  intro ents
  induction ents with
  | nil =>
      intro secs secs' t l h hr
      cases h
      exact hr
  | cons e rest ih =>
      intro secs secs' t l h hr
      unfold markGroupMembers at h
      split at h
      · cases h
      · have := ih _ _ _ _ h hr
        rw [getD_set_cases] at this
        split at this
        · cases this
        · exact this

/-! ## Frame and preservation lemmas for createInputSection -/

theorem createInputSection_frame (cfg : Config) (fname : String) (n : Nat)
    (sec : Shdr) (i : Nat) (st st' : PState)
    (h : createInputSection cfg fname n sec i st = .ok st') :
    st'.comdat = st.comdat ∧ st'.symtab = st.symtab ∧
      st'.symtabSHNDX = st.symtabSHNDX ∧
      st'.sections.length = st.sections.length := by
  unfold createInputSection at h
  repeat' split at h
  all_goals cases h
  all_goals simp [List.length_set]

set_option maxHeartbeats 1000000 in
theorem createInputSection_discard_preserve (cfg : Config) (fname : String)
    (n : Nat) (sec : Shdr) (i : Nat) (st st' : PState)
    (h : createInputSection cfg fname n sec i st = .ok st')
    (hguard : st.sections.getD i .null ≠ .discarded) :
    ∀ j, st.sections.getD j .null = .discarded →
      st'.sections.getD j .null = .discarded := by
  intro j hd
  have hij : i ≠ j := fun hc => hguard (hc ▸ hd)
  unfold createInputSection at h
  repeat' split at h
  all_goals cases h
  all_goals simp only []
  all_goals first
    | exact getD_set_same_val _ _ _ _ _ hd
    | (rw [getD_set_other _ _ _ _ _ hij]; exact hd)
    | (rw [getD_set_other _ _ _ _ _ hij, getD_set_cases]
       split
       · exfalso
         simp_all
       · exact hd)

/-! ## Frame and preservation lemmas for processSection and the loop -/

theorem processSection_frame (cfg : Config) (fname : String) (n : Nat)
    (sec : Shdr) (i : Nat) (st st' : PState)
    (h : processSection cfg fname n sec i st = .ok st') :
    st'.sections.length = st.sections.length ∧
      (∀ s, s ∈ st.comdat → s ∈ st'.comdat) := by
  unfold processSection at h
  split at h
  · cases h
    exact ⟨rfl, fun s hs => hs⟩
  · split at h
    · cases h
      exact ⟨by simp [List.length_set], fun s hs => hs⟩
    · split at h
      · split at h
        · split at h
          · cases h
          · split at h
            · cases h
            · next secs hmk =>
                cases h
                refine ⟨?_, fun s hs => hs⟩
                simp [markGroupMembers_length _ _ _ _ _ hmk, List.length_set]
        · cases h
          exact ⟨by simp [List.length_set], fun s hs => List.mem_cons_of_mem _ hs⟩
      · split at h
        · cases h
          exact ⟨rfl, fun s hs => hs⟩
        · split at h
          · cases h
            exact ⟨rfl, fun s hs => hs⟩
          · split at h
            · cases h
              exact ⟨rfl, fun s hs => hs⟩
            · have hf := createInputSection_frame cfg fname n sec i st st' h
              exact ⟨hf.2.2.2, fun s hs => hf.1 ▸ hs⟩

theorem processSection_discard_preserve (cfg : Config) (fname : String)
    (n : Nat) (sec : Shdr) (i : Nat) (st st' : PState)
    (h : processSection cfg fname n sec i st = .ok st') :
    ∀ j, st.sections.getD j .null = .discarded →
      st'.sections.getD j .null = .discarded := by
  intro j hd
  unfold processSection at h
  split at h
  · cases h
    exact hd
  · next hguard =>
      split at h
      · cases h
        exact getD_set_same_val _ _ _ _ _ hd
      · split at h
        · split at h
          · split at h
            · cases h
            · split at h
              · cases h
              · next secs hmk =>
                  cases h
                  exact markGroupMembers_preserve _ _ _ _ _ _ hmk
                    (getD_set_same_val _ _ _ _ _ hd)
          · cases h
            exact getD_set_same_val _ _ _ _ _ hd
        · split at h
          · cases h
            exact hd
          · split at h
            · cases h
              exact hd
            · split at h
              · cases h
                exact hd
              · exact createInputSection_discard_preserve cfg fname n sec i st st'
                  h hguard j hd

theorem initSecsGo_cons_ok (cfg : Config) (fname : String) (n : Nat)
    (sec : Shdr) (rest : List Shdr) (i : Nat) (st st'' : PState)
    (h : initSecsGo cfg fname n (sec :: rest) i st = .ok st'') :
    ∃ st', processSection cfg fname n sec i st = .ok st' ∧
      initSecsGo cfg fname n rest (i + 1) st' = .ok st'' := by
  unfold initSecsGo at h
  split at h
  · cases h
  · next st' hp => exact ⟨st', hp, h⟩

theorem initSecsGo_frame (cfg : Config) (fname : String) (n : Nat) :
    ∀ (rest : List Shdr) (i : Nat) (st st' : PState),
      initSecsGo cfg fname n rest i st = .ok st' →
      st'.sections.length = st.sections.length ∧
        (∀ s, s ∈ st.comdat → s ∈ st'.comdat) ∧
        (∀ j, st.sections.getD j .null = .discarded →
          st'.sections.getD j .null = .discarded) := by
  intro rest
  induction rest with
  | nil =>
      intro i st st' h
      cases h
      exact ⟨rfl, fun s hs => hs, fun j hd => hd⟩
  | cons sec rest ih =>
      intro i st st' h
      obtain ⟨st1, hp, hgo⟩ := initSecsGo_cons_ok cfg fname n sec rest i st st' h
      obtain ⟨hl1, hc1⟩ := processSection_frame cfg fname n sec i st st1 hp
      obtain ⟨hl2, hc2, hd2⟩ := ih (i + 1) st1 st' hgo
      refine ⟨hl2.trans hl1, fun s hs => hc2 s (hc1 s hs), fun j hd => ?_⟩
      exact hd2 j (processSection_discard_preserve cfg fname n sec i st st1 hp j hd)

theorem initSecsGo_append_split (cfg : Config) (fname : String) (n : Nat) :
    ∀ (a b : List Shdr) (i : Nat) (st st' : PState),
      initSecsGo cfg fname n (a ++ b) i st = .ok st' →
      ∃ st2, initSecsGo cfg fname n a i st = .ok st2 ∧
        initSecsGo cfg fname n b (i + a.length) st2 = .ok st' := by
  intro a
  induction a with
  | nil =>
      intro b i st st' h
      exact ⟨st, rfl, by simpa using h⟩
  | cons sec a ih =>
      intro b i st st' h
      rw [List.cons_append] at h
      obtain ⟨st1, hp, hgo⟩ := initSecsGo_cons_ok cfg fname n sec (a ++ b) i st st' h
      obtain ⟨st2, hgo1, hgo2⟩ := ih b (i + 1) st1 st' hgo
      refine ⟨st2, ?_, ?_⟩
      · unfold initSecsGo
        rw [hp]
        exact hgo1
      · have harith : i + 1 + a.length = i + (sec :: a).length := by
          simp only [List.length_cons]
          omega
        rw [← harith]
        exact hgo2

/-- Every successful `createInputSection` either stores a single new entry at
index `i`, or attaches the relocation section `i` to a regular target and
stores `nullptr` at `i`, or attaches it to an exception-frame target and
stores `nullptr` at `i`. -/
theorem createInputSection_shape (cfg : Config) (fname : String) (n : Nat)
    (sec : Shdr) (i : Nat) (st st' : PState)
    (h : createInputSection cfg fname n sec i st = .ok st') :
    (∃ v, (v = SEnt.discarded ∨ v = SEnt.mipsReginfo ∨ v = SEnt.mipsOptions ∨
            v = SEnt.mipsAbiFlags ∨ v = SEnt.null ∨ v = SEnt.regular [] ∨
            v = SEnt.merge ∨ v = SEnt.ehFrame none) ∧
        st'.sections = st.sections.set i v) ∨
    (∃ idx l, st.sections.getD idx .null = .regular l ∧
        st'.sections = (st.sections.set idx (.regular (l ++ [i]))).set i .null) ∨
    (∃ idx, st.sections.getD idx .null = .ehFrame none ∧
        st'.sections = (st.sections.set idx (.ehFrame (some i))).set i .null) := by
  unfold createInputSection at h
  repeat' split at h
  all_goals cases h
  all_goals simp only []
  · exact Or.inl ⟨_, by simp, rfl⟩
  · exact Or.inl ⟨_, by simp, rfl⟩
  · exact Or.inl ⟨_, by simp, rfl⟩
  · exact Or.inl ⟨_, by simp, rfl⟩
  · exact Or.inl ⟨_, by simp, rfl⟩
  · exact Or.inl ⟨_, by simp, rfl⟩
  · refine Or.inr (Or.inl ⟨_, _, ?_, rfl⟩)
    assumption
  · refine Or.inr (Or.inr ⟨_, ?_, rfl⟩)
    assumption
  · exact Or.inl ⟨_, by simp, rfl⟩
  · exact Or.inl ⟨_, by simp, rfl⟩
  · exact Or.inl ⟨_, by simp, rfl⟩
  · exact Or.inl ⟨_, by simp, rfl⟩
  · exact Or.inl ⟨_, by simp, rfl⟩
  · exact Or.inl ⟨_, by simp, rfl⟩

theorem createInputSection_nondiscard (cfg : Config) (fname : String) (n : Nat)
    (sec : Shdr) (i : Nat) (st st' : PState) (k : Nat)
    (h : createInputSection cfg fname n sec i st = .ok st')
    (hik : i ≠ k)
    (hnd : st.sections.getD k .null ≠ .discarded) :
    st'.sections.getD k .null ≠ .discarded := by
  rcases createInputSection_shape cfg fname n sec i st st' h with
    ⟨v, hv, hs⟩ | ⟨idx, l0, heq, hs⟩ | ⟨idx, heq, hs⟩
  · rw [hs, getD_set_cases]
    split
    · next hc => exact absurd hc.1 hik
    · exact hnd
  · rw [hs, getD_set_cases]
    split
    · next hc => exact absurd hc.1 hik
    · rw [getD_set_cases]
      split
      · simp
      · exact hnd
  · rw [hs, getD_set_cases]
    split
    · next hc => exact absurd hc.1 hik
    · rw [getD_set_cases]
      split
      · simp
      · exact hnd

theorem getShtGroupEntries_sub (fname : String) (sec : Shdr) (ents : List Nat)
    (h : getShtGroupEntries fname sec = .ok ents) :
    ∀ e ∈ ents, e ∈ sec.contents := by
  unfold getShtGroupEntries at h
  split at h
  · cases h
  · next w rest hcont =>
      split at h
      · cases h
        intro e he
        rw [hcont]
        exact List.mem_cons_of_mem _ he
      · cases h

theorem processSection_nondiscard (cfg : Config) (fname : String) (n : Nat)
    (sec : Shdr) (i : Nat) (st st' : PState) (k : Nat)
    (h : processSection cfg fname n sec i st = .ok st')
    (hik : i ≠ k) (hkc : k ∉ sec.contents)
    (hnd : st.sections.getD k .null ≠ .discarded) :
    st'.sections.getD k .null ≠ .discarded := by
  unfold processSection at h
  split at h
  · cases h
    exact hnd
  · split at h
    · cases h
      rw [getD_set_other _ _ _ _ _ hik]
      exact hnd
    · split at h
      · split at h
        · split at h
          · cases h
          · next ents hge =>
              split at h
              · cases h
              · next secs hmk =>
                  cases h
                  simp only []
                  rw [markGroupMembers_other _ _ _ _ _ _ hmk
                      (fun hke => hkc (getShtGroupEntries_sub _ _ _ hge _ hke)),
                    getD_set_other _ _ _ _ _ hik]
                  exact hnd
        · cases h
          simp only []
          rw [getD_set_other _ _ _ _ _ hik]
          exact hnd
      · split at h
        · cases h
          exact hnd
        · split at h
          · cases h
            exact hnd
          · split at h
            · cases h
              exact hnd
            · exact createInputSection_nondiscard cfg fname n sec i st st' k h hik hnd

/-- Processing an `SHT_GROUP` header leaves the group's own slot discarded. -/
theorem processSection_group_discarded (cfg : Config) (fname : String) (n : Nat)
    (sec : Shdr) (i : Nat) (st st' : PState)
    (hty : sec.sh_type = SHT_GROUP)
    (hlen : i < st.sections.length)
    (h : processSection cfg fname n sec i st = .ok st') :
    st'.sections.getD i .null = .discarded := by
  unfold processSection at h
  split at h
  · next hg =>
      cases h
      exact hg
  · split at h
    · cases h
      exact getD_set_self _ _ _ _ hlen
    · split at h
      · split at h
        · cases h
        · next ents hge =>
            split at h
            · cases h
            · next secs hmk =>
                cases h
                exact markGroupMembers_preserve _ _ _ _ _ _ hmk
                  (getD_set_self _ _ _ _ hlen)
      · cases h
        exact getD_set_self _ _ _ _ hlen

/-- Processing a group whose signature is already in the COMDAT set marks
every member index listed in the group as discarded. -/
theorem processSection_group_dup (cfg : Config) (fname : String) (n : Nat)
    (sec : Shdr) (i : Nat) (st st' : PState)
    (hty : sec.sh_type = SHT_GROUP)
    (hex : sec.sh_flags &&& SHF_EXCLUDE = 0)
    (hguard : st.sections.getD i .null ≠ .discarded)
    (hsig : sec.signature ∈ st.comdat)
    (ents : List Nat)
    (hge : getShtGroupEntries fname sec = .ok ents)
    (hlen : st.sections.length = n)
    (h : processSection cfg fname n sec i st = .ok st') :
    ∀ e ∈ ents, st'.sections.getD e .null = .discarded := by
  unfold processSection at h
  rw [if_neg hguard, if_neg (by simp [hex]), if_pos hty, if_pos hsig] at h
  split at h
  · next e heq =>
      rw [hge] at heq
      cases heq
  · next ents' hge' =>
      rw [hge] at hge'
      injection hge' with hents
      subst hents
      split at h
      · cases h
      · next secs hmk =>
          cases h
          intro e he
          exact markGroupMembers_mem _ _ _ _ _ hmk
            (by simp [List.length_set, hlen]) e he

theorem replicate_getD_null (n j : Nat) :
    (List.replicate n SEnt.null).getD j .null = .null := by
  induction n generalizing j with
  | zero => simp [List.getD]
  | succ m ih =>
      cases j with
      | zero => simp [List.replicate, List.getD]
      | succ k =>
          rw [List.replicate_succ, List.getD_cons_succ]
          exact ih k

theorem initSecsGo_nondiscard (cfg : Config) (fname : String) (n k : Nat) :
    ∀ (rest : List Shdr) (i : Nat) (st st' : PState),
      initSecsGo cfg fname n rest i st = .ok st' →
      (∀ sec ∈ rest, k ∉ sec.contents) →
      i + rest.length ≤ k →
      st.sections.getD k .null ≠ .discarded →
      st'.sections.getD k .null ≠ .discarded := by
  intro rest
  induction rest with
  | nil =>
      intro i st st' h _ _ hnd
      cases h
      exact hnd
  | cons sec rest ih =>
      intro i st st' h hc hik hnd
      obtain ⟨st1, hp, hgo⟩ := initSecsGo_cons_ok cfg fname n sec rest i st st' h
      have hik1 : i ≠ k := by
        simp only [List.length_cons] at hik
        omega
      have h1 := processSection_nondiscard cfg fname n sec i st st1 k hp hik1
        (hc sec (List.mem_cons_self _ _)) hnd
      refine ih (i + 1) st1 st' hgo (fun s hs => hc s (List.mem_cons_of_mem _ hs)) ?_ h1
      simp only [List.length_cons] at hik
      omega

/-- A successful run of `initializeSections` splits at any in-range index `k`
into the run over the first `k` headers, one `processSection` step at `k`, and
the run over the rest. -/
theorem initializeSections_split (cfg : Config) (fname : String)
    (shdrs : List Shdr) (cs0 : List String) (st' : PState) (k : Nat) (sec : Shdr)
    (h : initializeSections cfg fname shdrs cs0 = .ok st')
    (hk : shdrs.get? k = some sec) :
    ∃ st1 st2,
      initSecsGo cfg fname shdrs.length (shdrs.take k) 0
          ⟨List.replicate shdrs.length .null, cs0, none, none, []⟩ = .ok st1 ∧
      processSection cfg fname shdrs.length sec k st1 = .ok st2 ∧
      initSecsGo cfg fname shdrs.length (shdrs.drop (k + 1)) (k + 1) st2 = .ok st' ∧
      st1.sections.length = shdrs.length := by
  have hlt : k < shdrs.length := List.get?_eq_some.mp hk |>.1
  unfold initializeSections at h
  have h0 : initSecsGo cfg fname shdrs.length (shdrs.take k ++ shdrs.drop k) 0
      ⟨List.replicate shdrs.length .null, cs0, none, none, []⟩ = .ok st' := by
    rw [List.take_append_drop]
    exact h
  obtain ⟨st1, h1, h2⟩ := initSecsGo_append_split cfg fname shdrs.length
    (shdrs.take k) (shdrs.drop k) 0 _ st' h0
  have hdk : shdrs.drop k = sec :: shdrs.drop (k + 1) := by
    obtain ⟨hlt2, hget⟩ := List.get?_eq_some.mp hk
    subst hget
    rw [List.drop_eq_getElem_cons hlt2]
    rfl
  have hlen0 : (shdrs.take k).length = k := by
    simp [List.length_take]
    omega
  rw [hdk, hlen0, Nat.zero_add] at h2
  obtain ⟨st2, hp, hgo⟩ := initSecsGo_cons_ok cfg fname shdrs.length sec
    (shdrs.drop (k + 1)) k st1 st' h2
  have hlen1 : st1.sections.length = shdrs.length := by
    have := (initSecsGo_frame cfg fname shdrs.length (shdrs.take k) 0 _ st1 h1).1
    simpa [List.length_replicate] using this
  exact ⟨st1, st2, h1, hp, hgo, hlen1⟩

/-- C1: COMDAT deduplication is cross-file and first-seen-wins.  For a
successful `initializeSections` run starting from the global signature set
`cs0` accumulated by earlier files: (1) every `SHT_GROUP` section's own slot
ends up discarded; (2) if a group's signature was already in `cs0`, every
member index listed in its contents ends up discarded (under the side
conditions that the group is not `SHF_EXCLUDE`d and its own index is not
listed as a member of any group of this file); (3) the first group observed
with a signature only records the signature and discards its own slot,
leaving every other section slot — in particular its members — unchanged. -/
theorem comdat_first_seen_wins (cfg : Config) (fname : String)
    (shdrs : List Shdr) (cs0 : List String) (st' : PState)
    (h : initializeSections cfg fname shdrs cs0 = .ok st') :
    (∀ k sec, shdrs.get? k = some sec → sec.sh_type = SHT_GROUP →
        st'.sections.getD k .null = .discarded)
    ∧ (∀ k sec ents, shdrs.get? k = some sec → sec.sh_type = SHT_GROUP →
        sec.sh_flags &&& SHF_EXCLUDE = 0 →
        sec.signature ∈ cs0 →
        (∀ s2 ∈ shdrs, k ∉ s2.contents) →
        getShtGroupEntries fname sec = .ok ents →
        ∀ e ∈ ents, st'.sections.getD e .null = .discarded)
    ∧ (∀ (n i : Nat) (sec : Shdr) (stA stB : PState), sec.sh_type = SHT_GROUP →
        stA.sections.getD i .null ≠ .discarded →
        sec.sh_flags &&& SHF_EXCLUDE = 0 →
        sec.signature ∉ stA.comdat →
        processSection cfg fname n sec i stA = .ok stB →
        stB.sections = stA.sections.set i .discarded ∧
          stB.comdat = sec.signature :: stA.comdat) := by
  refine ⟨?_, ?_, ?_⟩
  · intro k sec hk hty
    obtain ⟨st1, st2, h1, hp, hgo, hlen1⟩ :=
      initializeSections_split cfg fname shdrs cs0 st' k sec h hk
    have hlt : k < shdrs.length := List.get?_eq_some.mp hk |>.1
    have hd2 := processSection_group_discarded cfg fname shdrs.length sec k st1 st2
      hty (by rw [hlen1]; exact hlt) hp
    exact (initSecsGo_frame cfg fname shdrs.length _ _ _ _ hgo).2.2 k hd2
  · intro k sec ents hk hty hex hsig hnomem hge e he
    obtain ⟨st1, st2, h1, hp, hgo, hlen1⟩ :=
      initializeSections_split cfg fname shdrs cs0 st' k sec h hk
    have hnd1 : st1.sections.getD k .null ≠ .discarded := by
      refine initSecsGo_nondiscard cfg fname shdrs.length k (shdrs.take k) 0 _ st1 h1
        (fun s hs => hnomem s (List.take_subset k shdrs hs)) ?_ ?_
      · have : (shdrs.take k).length ≤ k := by
          simp [List.length_take]
        omega
      · rw [replicate_getD_null]
        simp
    have hsig1 : sec.signature ∈ st1.comdat :=
      (initSecsGo_frame cfg fname shdrs.length _ _ _ _ h1).2.1 _ hsig
    have hmark := processSection_group_dup cfg fname shdrs.length sec k st1 st2
      hty hex hnd1 hsig1 ents hge hlen1 hp
    exact (initSecsGo_frame cfg fname shdrs.length _ _ _ _ hgo).2.2 e (hmark e he)
  · intro n i sec stA stB hty hnd hex hsig hp
    unfold processSection at hp
    rw [if_neg hnd, if_neg (by simp [hex]), if_pos hty, if_neg hsig] at hp
    cases hp
    exact ⟨rfl, rfl⟩

/-- C1 (witness): a three-section file whose group (index 0, signature `sig`,
member index 2) duplicates a signature already registered by an earlier file:
the member slot 2 ends up discarded. -/
theorem comdat_first_seen_wins_witness :
    initializeSections ⟨1, false, StripPolicy.none, 0⟩ "f"
        [⟨17, 0, 0, 0, 0, 0, "", "sig", [1, 2]⟩, ⟨1, 0, 0, 0, 0, 0, "", "", []⟩,
         ⟨1, 0, 0, 0, 0, 0, "", "", []⟩] ["sig"] =
      .ok ⟨[.discarded, .regular [], .discarded], ["sig"], none, none, []⟩ ∧
    (PState.mk [.discarded, .regular [], .discarded] ["sig"] none none
        []).sections.getD 2 .null = .discarded :=
  ⟨by decide,
    (comdat_first_seen_wins ⟨1, false, StripPolicy.none, 0⟩ "f"
        [⟨17, 0, 0, 0, 0, 0, "", "sig", [1, 2]⟩, ⟨1, 0, 0, 0, 0, 0, "", "", []⟩,
         ⟨1, 0, 0, 0, 0, 0, "", "", []⟩] ["sig"]
        ⟨[.discarded, .regular [], .discarded], ["sig"], none, none, []⟩
        (by decide)).2.1 0 ⟨17, 0, 0, 0, 0, 0, "", "sig", [1, 2]⟩ [2]
      (by decide) (by decide) (by decide) (by decide) (by decide) (by decide)
      2 (by decide)⟩

/-! ## Relocation-list invariants (for the at-most-once attachment of
SHT_REL/SHT_RELA sections to their targets) -/

/-- Every attached-relocation list in the `Sections` vector is strictly
increasing and bounded by `b` (the next section index to be processed). -/
def RelocsBounded (secs : List SEnt) (b : Nat) : Prop :=
  ∀ t l, secs.getD t .null = .regular l →
    l.Pairwise (fun x y => x < y) ∧ ∀ x ∈ l, x < b

theorem relocsBounded_mono (secs : List SEnt) (b b' : Nat)
    (h : RelocsBounded secs b) (hb : b ≤ b') : RelocsBounded secs b' :=
  fun t l hr => ⟨(h t l hr).1, fun x hx => Nat.lt_of_lt_of_le ((h t l hr).2 x hx) hb⟩

theorem relocsBounded_set_nonreg (secs : List SEnt) (b i : Nat) (v : SEnt)
    (h : RelocsBounded secs b) (hv : ∀ l, v ≠ SEnt.regular l) :
    RelocsBounded (secs.set i v) b := by
  intro t l hr
  rw [getD_set_cases] at hr
  split at hr
  · exact absurd hr (hv l)
  · exact h t l hr

theorem relocsBounded_set_emptyreg (secs : List SEnt) (b i : Nat)
    (h : RelocsBounded secs b) : RelocsBounded (secs.set i (.regular [])) b := by
  intro t l hr
  rw [getD_set_cases] at hr
  split at hr
  · cases hr
    exact ⟨List.Pairwise.nil, by simp⟩
  · exact h t l hr

theorem relocsBounded_mark (fname : String) (n : Nat) (ents : List Nat)
    (secs secs' : List SEnt) (b : Nat)
    (hmk : markGroupMembers fname n ents secs = .ok secs')
    (h : RelocsBounded secs b) : RelocsBounded secs' b :=
  fun t l hr => h t l (markGroupMembers_regular fname n ents secs secs' t l hmk hr)

theorem createInputSection_relocs (cfg : Config) (fname : String) (n : Nat)
    (sec : Shdr) (i : Nat) (st st' : PState)
    (h : createInputSection cfg fname n sec i st = .ok st')
    (hinv : RelocsBounded st.sections i) : RelocsBounded st'.sections (i + 1) := by
  have hmono := relocsBounded_mono st.sections i (i + 1) hinv (Nat.le_succ i)
  rcases createInputSection_shape cfg fname n sec i st st' h with
    ⟨v, hv, hs⟩ | ⟨idx, l0, heq, hs⟩ | ⟨idx, heq, hs⟩
  · rw [hs]
    rcases hv with rfl | rfl | rfl | rfl | rfl | rfl | rfl | rfl
    all_goals first
      | exact relocsBounded_set_emptyreg _ _ _ hmono
      | exact relocsBounded_set_nonreg _ _ _ _ hmono (fun l hc => by cases hc)
  · rw [hs]
    refine relocsBounded_set_nonreg _ _ _ _ ?_ (fun l hc => by cases hc)
    intro t l hr
    rw [getD_set_cases] at hr
    split at hr
    · cases hr
      obtain ⟨hp, hb⟩ := hinv idx l0 heq
      refine ⟨?_, ?_⟩
      · rw [List.pairwise_append]
        refine ⟨hp, List.pairwise_singleton _ _, ?_⟩
        intro a ha b hbmem
        simp only [List.mem_singleton] at hbmem
        subst hbmem
        exact hb a ha
      · intro x hx
        rcases List.mem_append.mp hx with hx | hx
        · exact Nat.lt_succ_of_lt (hb x hx)
        · simp only [List.mem_singleton] at hx
          omega
    · exact hmono t l hr
  · rw [hs]
    refine relocsBounded_set_nonreg _ _ _ _ ?_ (fun l hc => by cases hc)
    intro t l hr
    rw [getD_set_cases] at hr
    split at hr
    · cases hr
    · exact hmono t l hr

theorem processSection_relocs (cfg : Config) (fname : String) (n : Nat)
    (sec : Shdr) (i : Nat) (st st' : PState)
    (h : processSection cfg fname n sec i st = .ok st')
    (hinv : RelocsBounded st.sections i) : RelocsBounded st'.sections (i + 1) := by
  have hmono := relocsBounded_mono st.sections i (i + 1) hinv (Nat.le_succ i)
  unfold processSection at h
  split at h
  · cases h
    exact hmono
  · split at h
    · cases h
      exact relocsBounded_set_nonreg _ _ _ _ hmono (fun l hc => by cases hc)
    · split at h
      · split at h
        · split at h
          · cases h
          · next ents hge =>
              split at h
              · cases h
              · next secs hmk =>
                  cases h
                  exact relocsBounded_mark _ _ _ _ _ _ hmk
                    (relocsBounded_set_nonreg _ _ _ _ hmono (fun l hc => by cases hc))
        · cases h
          exact relocsBounded_set_nonreg _ _ _ _ hmono (fun l hc => by cases hc)
      · split at h
        · cases h
          exact hmono
        · split at h
          · cases h
            exact hmono
          · split at h
            · cases h
              exact hmono
            · exact createInputSection_relocs cfg fname n sec i st st' h hinv

theorem initSecsGo_relocs (cfg : Config) (fname : String) (n : Nat) :
    ∀ (rest : List Shdr) (i : Nat) (st st' : PState),
      initSecsGo cfg fname n rest i st = .ok st' →
      RelocsBounded st.sections i → RelocsBounded st'.sections (i + rest.length) := by
  intro rest
  induction rest with
  | nil =>
      intro i st st' h hinv
      cases h
      simpa using hinv
  | cons sec rest ih =>
      intro i st st' h hinv
      obtain ⟨st1, hp, hgo⟩ := initSecsGo_cons_ok cfg fname n sec rest i st st' h
      have h1 := processSection_relocs cfg fname n sec i st st1 hp hinv
      have h2 := ih (i + 1) st1 st' hgo h1
      have harith : i + 1 + rest.length = i + (sec :: rest).length := by
        simp only [List.length_cons]
        omega
      exact harith ▸ h2

/-- C3: in non-relocatable mode, for every SHT_REL/SHT_RELA section header:
an `sh_info` at or past the section count is fatal; a target that is the
discarded sentinel silently drops the relocation section (entry `nullptr`, no
error); a regular target has the relocation section appended to its list
(exactly once: the fresh index was not yet in the list, and across a whole
`initializeSections` run every attached list is duplicate-free); an
exception-frame target that already has an attached relocation section is
fatal; a mergeable target is fatal. -/
theorem reloc_association (cfg : Config) (fname : String) (n i : Nat)
    (sec : Shdr) (st : PState)
    (hrel : sec.sh_type = SHT_RELA ∨ sec.sh_type = SHT_REL)
    (hnr : cfg.Relocatable = false) :
    ((n ≤ sec.sh_info → createInputSection cfg fname n sec i st =
        .error (fname ++ ": invalid relocated section index: " ++ toString sec.sh_info))
    ∧ (sec.sh_info < n → st.sections.getD sec.sh_info .null = .discarded →
        createInputSection cfg fname n sec i st =
          .ok { st with sections := st.sections.set i .null })
    ∧ (∀ l, sec.sh_info < n → st.sections.getD sec.sh_info .null = .regular l →
        createInputSection cfg fname n sec i st =
          .ok { st with sections :=
            (st.sections.set sec.sh_info (.regular (l ++ [i]))).set i .null } ∧
        (i ∉ l → (l ++ [i]).count i = 1))
    ∧ (∀ r, sec.sh_info < n → st.sections.getD sec.sh_info .null = .ehFrame (some r) →
        createInputSection cfg fname n sec i st =
          .error (fname ++ ": multiple relocation sections to .eh_frame are not supported"))
    ∧ (sec.sh_info < n → st.sections.getD sec.sh_info .null = .merge →
        createInputSection cfg fname n sec i st =
          .error (fname ++ ": relocations pointing to SHF_MERGE are not supported"))
    ∧ (∀ shdrs cs0 st', initializeSections cfg fname shdrs cs0 = .ok st' →
        ∀ t l, st'.sections.getD t .null = .regular l → l.Nodup)) := by
  have ht1 : ¬sec.sh_type = SHT_ARM_ATTRIBUTES := by
    rcases hrel with hty | hty <;> rw [hty] <;> decide
  have ht2 : ¬sec.sh_type = SHT_MIPS_REGINFO := by
    rcases hrel with hty | hty <;> rw [hty] <;> decide
  have ht3 : ¬sec.sh_type = SHT_MIPS_OPTIONS := by
    rcases hrel with hty | hty <;> rw [hty] <;> decide
  have ht4 : ¬sec.sh_type = SHT_MIPS_ABIFLAGS := by
    rcases hrel with hty | hty <;> rw [hty] <;> decide
  have hred : createInputSection cfg fname n sec i st =
      match getRelocTarget fname n st.sections sec with
      | .error e => .error e
      | .ok none => .ok { st with sections := st.sections.set i .null }
      | .ok (some idx) =>
          match st.sections.getD idx .null with
          | .regular l =>
              .ok { st with sections :=
                      (st.sections.set idx (.regular (l ++ [i]))).set i .null }
          | .ehFrame none =>
              .ok { st with sections :=
                      (st.sections.set idx (.ehFrame (some i))).set i .null }
          | .ehFrame (some _) =>
              .error (fname ++
                ": multiple relocation sections to .eh_frame are not supported")
          | _ =>
              .error (fname ++ ": relocations pointing to SHF_MERGE are not supported") := by
    unfold createInputSection
    rw [if_neg ht1, if_neg ht2, if_neg ht3, if_neg ht4, if_pos hrel,
      if_neg (by simp [hnr])]
  refine ⟨?_, ?_, ?_, ?_, ?_, ?_⟩
  · intro hge
    rw [hred]
    unfold getRelocTarget
    rw [if_pos hge]
  · intro hlt hdisc
    rw [hred]
    unfold getRelocTarget
    rw [if_neg (by omega), hdisc]
  · intro l hlt hreg
    have hrt : getRelocTarget fname n st.sections sec = .ok (some sec.sh_info) := by
      unfold getRelocTarget
      rw [if_neg (by omega), hreg]
    refine ⟨?_, ?_⟩
    · rw [hred, hrt]
      simp only []
      rw [hreg]
    · intro hnotin
      rw [List.count_append, List.count_eq_zero_of_not_mem hnotin]
      simp
  · intro r hlt heh
    have hrt : getRelocTarget fname n st.sections sec = .ok (some sec.sh_info) := by
      unfold getRelocTarget
      rw [if_neg (by omega), heh]
    rw [hred, hrt]
    simp only []
    rw [heh]
  · intro hlt hmerge
    have hrt : getRelocTarget fname n st.sections sec = .ok (some sec.sh_info) := by
      unfold getRelocTarget
      rw [if_neg (by omega), hmerge]
    rw [hred, hrt]
    simp only []
    rw [hmerge]
  · intro shdrs cs0 st' hinit t l hr
    have hbound : RelocsBounded st'.sections (0 + shdrs.length) := by
      refine initSecsGo_relocs cfg fname shdrs.length shdrs 0 _ st' hinit ?_
      intro t0 l0 hget
      rw [replicate_getD_null] at hget
      cases hget
    exact ((hbound t l hr).1).imp (fun hlt => Nat.ne_of_lt hlt)

/-- C3 (witness): a fresh `SHT_REL` section at index 1 targeting the regular
section 0 is attached to its relocation list exactly once, and the relocation
section's own slot becomes `nullptr`. -/
theorem reloc_association_witness :
    createInputSection ⟨1, false, StripPolicy.none, 0⟩ "f" 2
        ⟨9, 0, 0, 0, 0, 0, "", "", []⟩ 1
        ⟨[.regular [], .null], [], none, none, []⟩ =
      .ok ⟨[.regular [1], .null], [], none, none, []⟩ ∧
    (([] : List Nat) ++ [1]).count 1 = 1 :=
  ⟨(((reloc_association ⟨1, false, StripPolicy.none, 0⟩ "f" 2 1
        ⟨9, 0, 0, 0, 0, 0, "", "", []⟩
        ⟨[.regular [], .null], [], none, none, []⟩ (Or.inr rfl) rfl).2.2.1 []
        (by decide) (by decide)).1).trans (by decide),
    ((reloc_association ⟨1, false, StripPolicy.none, 0⟩ "f" 2 1
        ⟨9, 0, 0, 0, 0, 0, "", "", []⟩
        ⟨[.regular [], .null], [], none, none, []⟩ (Or.inr rfl) rfl).2.2.1 []
        (by decide) (by decide)).2 (by decide)⟩

/-! ## ELFFileBase::getElfSymbols (InputFiles.cpp:78-91)

The symbol range itself is produced by the external llvm decoder
(`ELFObj.symbols(Symtab)`); it is passed in as the list `syms`.  `symtabInfo`
carries `Symtab->sh_info` when a symbol table was recorded (`nullptr`
otherwise, in which case the source returns the empty range). -/

def getElfSymbols {α : Type} (fname : String) (symtabInfo : Option Nat)
    (syms : List α) (onlyGlobals : Bool) : Except String (List α) :=
  match symtabInfo with
  | none => .ok []
  | some firstNonLocal =>
      if syms.length < firstNonLocal then
        .error (fname ++ ": invalid sh_info in symbol table")
      else if onlyGlobals then .ok (syms.drop firstNonLocal)
      else .ok syms

/-- C7: for every ELF file with a symbol table, `sh_info` greater than the
symbol count is a fatal malformed-file error whose message names the file;
otherwise no error occurs and the returned range is all symbols, or the
symbols from index `sh_info` on when `OnlyGlobals` is requested. -/
theorem shinfo_bounds {α : Type} (fname : String) (fnl : Nat) (syms : List α)
    (og : Bool) :
    ((syms.length < fnl → getElfSymbols fname (some fnl) syms og =
        .error (fname ++ ": invalid sh_info in symbol table"))
    ∧ (fnl ≤ syms.length → getElfSymbols fname (some fnl) syms false = .ok syms)
    ∧ (fnl ≤ syms.length → getElfSymbols fname (some fnl) syms true =
        .ok (syms.drop fnl))
    ∧ (fnl ≤ syms.length → ∀ e, getElfSymbols fname (some fnl) syms og ≠ .error e)) := by
  refine ⟨?_, ?_, ?_, ?_⟩
  · intro hlt
    simp only [getElfSymbols]
    rw [if_pos hlt]
  · intro hle
    simp only [getElfSymbols]
    rw [if_neg (by omega)]
    simp
  · intro hle
    simp only [getElfSymbols]
    rw [if_neg (by omega)]
    simp
  · intro hle e
    simp only [getElfSymbols]
    rw [if_neg (by omega)]
    cases og <;> simp

/-- C7 (witness): `sh_info = 4` over three symbols is rejected with the
malformed-file message. -/
theorem shinfo_bounds_witness :
    getElfSymbols "f" (some 4) ([5, 6, 7] : List Nat) true =
      .error ("f" ++ ": invalid sh_info in symbol table") :=
  (shinfo_bounds "f" 4 [5, 6, 7] true).1 (by decide)

/-! ## ObjectFile::getNonLocalSymbols / getLocalSymbols (InputFiles.cpp:113-127)

`FirstNonLocal` is the `uint32_t` value `Symtab->sh_info`; `slice(1,
FirstNonLocal - 1)` computes its length in `uint32_t` arithmetic, which wraps
at `2 ^ 32`.  `ArrayRef::slice(N, M)` denotes the in-bounds subrange only when
`N + M ≤ size`. -/

/-- The `uint32_t` computation `FirstNonLocal - 1`. -/
def sliceLen32 (firstNonLocal : Nat) : Nat := (firstNonLocal + (2 ^ 32 - 1)) % 2 ^ 32

def getNonLocalSymbols {α : Type} (symtabInfo : Option Nat) (bodies : List α) :
    List α :=
  match symtabInfo with
  | none => bodies
  | some fnl => bodies.drop fnl

def getLocalSymbols {α : Type} (symtabInfo : Option Nat) (bodies : List α) :
    List α :=
  match symtabInfo with
  | none => bodies
  | some fnl => (bodies.drop 1).take (sliceLen32 fnl)

/-- `ArrayRef::slice(start, len)` on an array of `size` elements denotes a
valid subrange iff `start + len ≤ size`. -/
def sliceInBounds (start len size : Nat) : Prop := start + len ≤ size

/-- C8: with `FirstNonLocal ≥ 1`, `getNonLocalSymbols` is the suffix from
index `FirstNonLocal` and `getLocalSymbols` the subrange from index 1 of
length `FirstNonLocal - 1`, and the two partition the bodies at indices 1 and
above; with `FirstNonLocal = 0` the `uint32_t` length underflows to
`2 ^ 32 - 1` and the local slice is not in bounds for any body vector shorter
than `2 ^ 32`. -/
theorem symbol_slices {α : Type} (fnl : Nat) (bodies : List α)
    (hlt : fnl < 2 ^ 32) :
    ((1 ≤ fnl →
        getNonLocalSymbols (some fnl) bodies = bodies.drop fnl
        ∧ getLocalSymbols (some fnl) bodies = (bodies.drop 1).take (fnl - 1)
        ∧ getLocalSymbols (some fnl) bodies ++ getNonLocalSymbols (some fnl) bodies =
            bodies.drop 1)
    ∧ (fnl = 0 →
        sliceLen32 fnl = 2 ^ 32 - 1
        ∧ (bodies.length < 2 ^ 32 →
            ¬ sliceInBounds 1 (sliceLen32 fnl) bodies.length))) := by
  have hlen : 1 ≤ fnl → sliceLen32 fnl = fnl - 1 := by
    intro h1
    unfold sliceLen32
    have heq : fnl + (2 ^ 32 - 1) = (fnl - 1) + 2 ^ 32 := by omega
    rw [heq, Nat.add_mod_right]
    exact Nat.mod_eq_of_lt (by omega)
  refine ⟨?_, ?_⟩
  · intro h1
    refine ⟨rfl, ?_, ?_⟩
    · simp only [getLocalSymbols]
      rw [hlen h1]
    · simp only [getLocalSymbols, getNonLocalSymbols]
      rw [hlen h1]
      have hdd : bodies.drop fnl = (bodies.drop 1).drop (fnl - 1) := by
        rw [List.drop_drop]
        congr 1
        omega
      rw [hdd, List.take_append_drop]
  · intro h0
    subst h0
    refine ⟨by decide, ?_⟩
    intro hblen hsl
    unfold sliceInBounds at hsl
    have : sliceLen32 0 = 2 ^ 32 - 1 := by decide
    omega

/-- C8 (witness): with `sh_info = 2` over bodies `[10, 20, 30]`, the local and
non-local accessors partition the bodies above index 0. -/
theorem symbol_slices_witness :
    getLocalSymbols (some 2) ([10, 20, 30] : List Nat) ++
      getNonLocalSymbols (some 2) ([10, 20, 30] : List Nat) = [20, 30] :=
  (((symbol_slices 2 [10, 20, 30] (by decide)).1 (by decide)).2.2).trans (by decide)

/-! ## SharedFile::parseSoName (InputFiles.cpp:469-519)

The walk over section headers that records the dynamic section and the
initialization of the dynamic string table are the external decoder's output:
`dynEntries` is the decoded `Elf_Dyn` array of the `SHT_DYNAMIC` section
(`none` when there is no dynamic section) and `strtab` the dynamic string
table bytes.  `sys::path::filename` is llvm Support code not among the
sources at hand; `basename` is modelled from the spec: the SONAME "defaults
to the filename", i.e. the portion of the path after the last slash. -/

structure DynEntry where
  d_tag : Nat
  d_val : Nat
deriving DecidableEq, Repr

/-- Modelled from the spec: `sys::path::filename`, the portion of the path
after the last `/`. -/
def basename (p : String) : String :=
  String.mk ((p.data.reverse.takeWhile (fun c => c ≠ '/')).reverse)

/-- The null-terminated string at offset `v` of the string table
(`StringRef(this->StringTable.data() + Val)`). -/
def strtabRead (strtab : List Char) (v : Nat) : String :=
  String.mk ((strtab.drop v).takeWhile (fun c => c ≠ Char.ofNat 0))

/-- The `DT_SONAME` search loop of `parseSoName` (InputFiles.cpp:510-518). -/
def soNameLoop (fname : String) (strtab : List Char) (dflt : String) :
    List DynEntry → Except String String
  | [] => .ok dflt
  | d :: rest =>
      if d.d_tag = DT_SONAME then
        if strtab.length ≤ d.d_val then .error (fname ++ ": invalid DT_SONAME entry")
        else .ok (strtabRead strtab d.d_val)
      else soNameLoop fname strtab dflt rest

/-- `SharedFile<ELFT>::parseSoName()` (InputFiles.cpp:469-519), producing the
resulting `SoName` (or the fatal error). -/
def parseSoName (path : String) (dynEntries : Option (List DynEntry))
    (strtab : List Char) : Except String String :=
  match dynEntries with
  | none => .ok (basename path)
  | some ds => soNameLoop path strtab (basename path) ds

/-- C4: after `parseSoName`, a shared file without a `DT_SONAME` entry gets
the basename of its path as `SoName`; the first `DT_SONAME` entry with value
inside the dynamic string table replaces it with the null-terminated string
at that offset; a value at or past the string table size is fatal. -/
theorem soname_resolution (path : String) (strtab : List Char) :
    ((parseSoName path none strtab = .ok (basename path))
    ∧ (∀ ds, (∀ d ∈ ds, d.d_tag ≠ DT_SONAME) →
        parseSoName path (some ds) strtab = .ok (basename path))
    ∧ (∀ pre d post, (∀ x ∈ pre, x.d_tag ≠ DT_SONAME) → d.d_tag = DT_SONAME →
        d.d_val < strtab.length →
        parseSoName path (some (pre ++ d :: post)) strtab =
          .ok (strtabRead strtab d.d_val))
    ∧ (∀ pre d post, (∀ x ∈ pre, x.d_tag ≠ DT_SONAME) → d.d_tag = DT_SONAME →
        strtab.length ≤ d.d_val →
        parseSoName path (some (pre ++ d :: post)) strtab =
          .error (path ++ ": invalid DT_SONAME entry"))) := by
  refine ⟨rfl, ?_, ?_, ?_⟩
  · intro ds hnone
    unfold parseSoName
    induction ds with
    | nil => rfl
    | cons d rest ih =>
        unfold soNameLoop
        rw [if_neg (hnone d (List.mem_cons_self _ _))]
        exact ih (fun x hx => hnone x (List.mem_cons_of_mem _ hx))
  · intro pre d post hpre htag hval
    unfold parseSoName
    induction pre with
    | nil =>
        rw [List.nil_append]
        unfold soNameLoop
        rw [if_pos htag, if_neg (by omega)]
    | cons p pre ih =>
        rw [List.cons_append]
        unfold soNameLoop
        rw [if_neg (hpre p (List.mem_cons_self _ _))]
        exact ih (fun x hx => hpre x (List.mem_cons_of_mem _ hx))
  · intro pre d post hpre htag hval
    unfold parseSoName
    induction pre with
    | nil =>
        rw [List.nil_append]
        unfold soNameLoop
        rw [if_pos htag, if_pos hval]
    | cons p pre ih =>
        rw [List.cons_append]
        unfold soNameLoop
        rw [if_neg (hpre p (List.mem_cons_self _ _))]
        exact ih (fun x hx => hpre x (List.mem_cons_of_mem _ hx))

/-- C4 (witness): a `DT_SONAME` entry at offset 4 of the dynamic string table
overrides the default basename with the referenced string. -/
theorem soname_resolution_witness :
    parseSoName "/p/libq.so.1"
        (some [⟨21, 0⟩, ⟨14, 4⟩])
        ("lib".data ++ [Char.ofNat 0] ++ "libq.so.2".data ++ [Char.ofNat 0]) =
      .ok "libq.so.2" :=
  (((soname_resolution "/p/libq.so.1"
        ("lib".data ++ [Char.ofNat 0] ++ "libq.so.2".data ++ [Char.ofNat 0])).2.2.1
      [⟨21, 0⟩] ⟨14, 4⟩ [] (by decide) (by decide) (by decide))).trans (by decide)

/-! ## ArchiveFile::getMember (InputFiles.cpp:434-452) and
LazyObjectFile::getBuffer (InputFiles.cpp:777-782)

The resolution of an archive symbol to its member (`Sym->getMember()`, giving
the child offset, and `C.getMemoryBufferRef()`, giving the member's buffer)
is the external llvm archive reader; an `ArchiveSymbol` carries those decoded
results.  `Seen` is the set of already-extracted child offsets; buffers are
byte strings, with `""` standing for the default-constructed (empty)
`MemoryBufferRef`. -/

structure ArchiveSymbol where
  name : String
  childOffset : Nat
  memberBuf : String
deriving DecidableEq, Repr

/-- `ArchiveFile::getMember(const Archive::Symbol *Sym)`: returns the updated
`Seen` set and the buffer handed to the caller. -/
def getMember (seen : List Nat) (sym : ArchiveSymbol) : List Nat × String :=
  if sym.childOffset ∈ seen then (seen, "")
  else (sym.childOffset :: seen, sym.memberBuf)

/-- `LazyObjectFile::getBuffer()`: `Seen` starts out `false`; the first call
returns `MB` and flips it, later calls return the empty buffer. -/
def lazyGetBuffer (seen : Bool) (mb : String) : Bool × String :=
  if seen then (true, "") else (true, mb)

/-- C5: buffer extraction of lazy wrappers succeeds at most once.  The first
`getMember` call for a member returns its (non-empty) buffer and records the
member offset; any call finding the offset recorded returns the empty buffer;
the `Seen` set only grows, so every later call for the member stays empty.
`LazyObjectFile::getBuffer` returns the file's buffer first and the empty
buffer on every subsequent call. -/
theorem lazy_extract_once (seen : List Nat) (sym : ArchiveSymbol) (b : Bool)
    (mb : String) :
    ((sym.childOffset ∉ seen →
        (getMember seen sym).2 = sym.memberBuf
        ∧ (sym.memberBuf ≠ "" → (getMember seen sym).2 ≠ "")
        ∧ sym.childOffset ∈ (getMember seen sym).1)
    ∧ (sym.childOffset ∈ seen → (getMember seen sym).2 = "")
    ∧ (∀ x ∈ seen, x ∈ (getMember seen sym).1)
    ∧ lazyGetBuffer false mb = (true, mb)
    ∧ lazyGetBuffer true mb = (true, "")
    ∧ (lazyGetBuffer b mb).1 = true) := by
  refine ⟨?_, ?_, ?_, rfl, rfl, ?_⟩
  · intro hnot
    unfold getMember
    rw [if_neg hnot]
    exact ⟨rfl, fun hne => hne, List.mem_cons_self _ _⟩
  · intro hmem
    unfold getMember
    rw [if_pos hmem]
  · intro x hx
    unfold getMember
    split
    · exact hx
    · exact List.mem_cons_of_mem _ hx
  · cases b <;> rfl

/-- C5 (witness): extracting the member at offset 64 twice yields its buffer,
then the empty buffer; the lazy-object buffer behaves the same. -/
theorem lazy_extract_once_witness :
    (getMember [] ⟨"bar", 64, "BUF"⟩).2 = "BUF"
    ∧ (getMember [64] ⟨"bar", 64, "BUF"⟩).2 = ""
    ∧ lazyGetBuffer false "MB" = (true, "MB")
    ∧ lazyGetBuffer true "MB" = (true, "") :=
  ⟨((lazy_extract_once [] ⟨"bar", 64, "BUF"⟩ false "MB").1 (by decide)).1,
    (lazy_extract_once [64] ⟨"bar", 64, "BUF"⟩ false "MB").2.1 (by decide),
    (lazy_extract_once [] ⟨"bar", 64, "BUF"⟩ false "MB").2.2.2.1,
    (lazy_extract_once [] ⟨"bar", 64, "BUF"⟩ true "MB").2.2.2.2.1⟩

/-- C10: extraction deduplication is keyed by the member child offset, not by
the requesting symbol: after one symbol's member is extracted, the first
`getMember` call for a different symbol resolving to the same offset returns
the empty buffer, while a symbol resolving to a fresh offset still gets its
buffer. -/
theorem dedup_by_offset (seen : List Nat) (s1 s2 : ArchiveSymbol)
    (hoff : s2.childOffset = s1.childOffset)
    (hfresh : s1.childOffset ∉ seen) :
    ((getMember seen s1).2 = s1.memberBuf
    ∧ (getMember (getMember seen s1).1 s2).2 = ""
    ∧ (∀ s3 : ArchiveSymbol, s3.childOffset ≠ s1.childOffset →
        s3.childOffset ∉ seen →
        (getMember (getMember seen s1).1 s3).2 = s3.memberBuf)) := by
  unfold getMember
  rw [if_neg hfresh]
  refine ⟨rfl, ?_, ?_⟩
  · rw [if_pos (by rw [hoff]; exact List.mem_cons_self _ _)]
  · intro s3 hne hnot
    rw [if_neg ?_]
    intro hmem
    rcases List.mem_cons.mp hmem with hc | hc
    · exact hne hc
    · exact hnot hc

/-- C10 (witness): symbols `a` and `b` both resolve to member offset 64; after
extracting via `a`, the first request via `b` returns the empty buffer. -/
theorem dedup_by_offset_witness :
    (getMember [] ⟨"a", 64, "B1"⟩).2 = "B1"
    ∧ (getMember (getMember [] ⟨"a", 64, "B1"⟩).1 ⟨"b", 64, "B2"⟩).2 = "" :=
  ⟨(dedup_by_offset [] ⟨"a", 64, "B1"⟩ ⟨"b", 64, "B2"⟩ (by decide) (by decide)).1,
    (dedup_by_offset [] ⟨"a", 64, "B1"⟩ ⟨"b", 64, "B2"⟩ (by decide) (by decide)).2.1⟩

/-! ## BinaryFile::createELF (InputFiles.cpp:716-759) -/

def ET_REL : Nat := 1

structure BinSection where
  name : String
  sh_type : Nat
  sh_flags : Nat
  sh_size : Nat
  sh_addralign : Nat
deriving DecidableEq, Repr

structure BinSymbol where
  name : String
  binding : Nat
  symType : Nat
  st_shndx : Nat
  st_value : Nat
deriving DecidableEq, Repr

structure BinaryELF where
  e_type : Nat
  e_machine : Nat
  sections : List BinSection
  symbols : List BinSymbol
deriving DecidableEq, Repr

/-- The path sanitization of `BinaryFile::createELF`: every byte for which C
`isalnum` is false is replaced by an underscore. -/
def sanitizePath (p : String) : String :=
  String.mk (p.data.map (fun c => if c.isAlphanum then c else '_'))

/-- `BinaryFile::createELF()` (InputFiles.cpp:716-759), restricted to the
symbolic content it creates.  Modelled from the spec: the `ELFCreator` helper
(ELFCreator.cpp is not among the sources at hand) zero-initializes newly
added symbols, returns the `.data` section's header index as `dataSecIndex`,
and the layout/serialization plus the re-parse through
`createELFFile<ObjectFile>` preserve this symbolic content (spec §4.7). -/
def createELF (cfg : Config) (path : String) (size : Nat) (dataSecIndex : Nat) :
    BinaryELF :=
  { e_type := ET_REL
    e_machine := cfg.EMachine
    sections := [⟨".data", SHT_PROGBITS, SHF_ALLOC, size, 8⟩]
    symbols :=
      [⟨"_binary_" ++ sanitizePath path ++ "_start", STB_GLOBAL, STT_OBJECT,
          dataSecIndex, 0⟩,
        ⟨"_binary_" ++ sanitizePath path ++ "_end", STB_GLOBAL, STT_OBJECT,
          dataSecIndex, size⟩,
        ⟨"_binary_" ++ sanitizePath path ++ "_size", STB_GLOBAL, STT_OBJECT,
          SHN_ABS, size⟩] }

/-- C6: for every byte buffer of length `size` with identifier `path`,
`BinaryFile::createELF` produces a relocatable ELF with a single `.data`
section and exactly three global object symbols `_binary_<san>_start`,
`_binary_<san>_end`, `_binary_<san>_size` — `<san>` being `path` with every
non-alphanumeric byte replaced by `_` — with values `0`, `size`, `size`,
the start/end symbols in the `.data` section and the size symbol at
`SHN_ABS`. -/
theorem binary_blob_symbols (cfg : Config) (path : String) (size dataSecIndex : Nat) :
    ((createELF cfg path size dataSecIndex).symbols.length = 3
    ∧ (createELF cfg path size dataSecIndex).symbols.map BinSymbol.name =
        ["_binary_" ++ sanitizePath path ++ "_start",
         "_binary_" ++ sanitizePath path ++ "_end",
         "_binary_" ++ sanitizePath path ++ "_size"]
    ∧ (createELF cfg path size dataSecIndex).symbols.map BinSymbol.st_value =
        [0, size, size]
    ∧ (createELF cfg path size dataSecIndex).symbols.map BinSymbol.st_shndx =
        [dataSecIndex, dataSecIndex, SHN_ABS]
    ∧ (∀ s ∈ (createELF cfg path size dataSecIndex).symbols,
        s.binding = STB_GLOBAL ∧ s.symType = STT_OBJECT)
    ∧ (createELF cfg path size dataSecIndex).sections =
        [⟨".data", SHT_PROGBITS, SHF_ALLOC, size, 8⟩]
    ∧ (createELF cfg path size dataSecIndex).e_type = ET_REL
    ∧ (sanitizePath path).data =
        path.data.map (fun c => if c.isAlphanum then c else '_')) := by
  refine ⟨rfl, rfl, rfl, rfl, ?_, rfl, rfl, rfl⟩
  intro s hs
  unfold createELF at hs
  simp only [List.mem_cons, List.not_mem_nil, or_false] at hs
  rcases hs with rfl | rfl | rfl <;> exact ⟨rfl, rfl⟩

end LLD
